import Mathlib

/-!
# Read path of the LSM inverted index (`pkg/index/lsm/search.go`)

A shallow embedding of `store.MatchField`, `store.MatchTerms`, `store.Range` and of the
merge step that `store.Iterator` hands to the field-iterator template, followed by the
properties of these functions.

Conventions of the embedding.

* A Go `[]byte` is a `List Nat`.
* A Go `error` is a `GoError`, the list of its parts: `nil` is `[]`, an ordinary error is a
  one-element list and the compound error built by `multierr.Append` is the list of the
  errors it was built from.  `err != nil` reads `err ≠ []`.
* A Go function returning `(x, err)` returns a pair; a `posting.List` result that may be the
  nil interface is an `Option`.
* The packages `index`, `kv`, `convert` and `roaring` are used by `search.go` and lie
  outside it.  What `search.go` calls in them is collected in `Deps` (codec, byte
  conversion, `Union`, iterator template, the not-found sentinel) or modelled from the
  specification where the specification fixes the behaviour.
-/

namespace Lsm

/-! ## Data model -/

/-- Go `[]byte`. -/
abbrev Bytes := List Nat

/-- An error value that is not a `multierr` compound: a sentinel, or an error wrapping
another one (`errors.Wrap`, `errors.WithMessage`). -/
inductive ErrAtom where
  | sentinel (name : String)
  | wrap (msg : String) (cause : ErrAtom)
  deriving DecidableEq, Repr

/-- Go `error`: the list of the parts of the error, `[]` for `nil`. -/
abbrev GoError := List ErrAtom

/-- The type `common.ItemID`, a `uint64`. -/
abbrev ItemID := Nat

/-- Modelled from the spec: the Posting Set of section 3 and 4.2 ("an ordered, deduplicated
set of 64-bit item identifiers"), whose implementation, package `roaring`, is missing. -/
abbrev PostingList := Finset ItemID

/-- Modelled from the spec: `roaring.NewPostingList`, "New() -> empty set". -/
def NewPostingList : PostingList := ∅

/-- Modelled from the spec: `roaring.EmptyPostingList`, the "constructible empty form". -/
def EmptyPostingList : PostingList := ∅

/-- Modelled from the spec: `roaring.NewPostingListWithInitialData(data...)`,
"NewWithSingleton(id) -> set containing exactly id", for any number of arguments. -/
def NewPostingListWithInitialData (data : List ItemID) : PostingList := data.toFinset

/-- Modelled from the spec: `posting.List.Insert`, "adds id; no-op if already present". -/
def PostingList.Insert (p : PostingList) (id : ItemID) : PostingList := insert id p

/-- The type `index.FieldKey`. -/
structure FieldKey where
  id : Nat
  deriving DecidableEq, Repr

/-- The type `index.Field`: a field key and a term. -/
structure Field where
  Key : FieldKey
  Term : Bytes
  deriving DecidableEq, Repr

/-- The type `index.RangeOpts`; the Go zero value `RangeOpts{}` is `RangeOpts.zero`. -/
structure RangeOpts where
  Upper : Option Bytes
  Lower : Option Bytes
  IncludesUpper : Bool
  IncludesLower : Bool
  deriving DecidableEq, Repr

/-- Go `index.RangeOpts{}`: both bounds unset. -/
def RangeOpts.zero : RangeOpts := ⟨none, none, false, false⟩

/-- The enumeration `modelv2.QueryOrder_Sort`. -/
inductive QueryOrder_Sort where
  | SORT_UNSPECIFIED
  | SORT_DESC
  | SORT_ASC
  deriving DecidableEq, Repr

/-- The type `index.PostingValue`. -/
structure PostingValue where
  Term : Bytes
  Value : PostingList
  deriving DecidableEq

/-- The schema handle `s.termMetadata`; it is only passed on to the codec. -/
abbrev TermMetadata := Nat

/-- One entry of the ordered store: what `Key()` and `Val()` of a cursor resting on it
return. -/
structure Entry where
  key : Bytes
  val : Bytes
  deriving DecidableEq, Repr

/-- A `kv.Iterator`, given by the entries at and after its position, in the order in which
`Next()` reaches them.  `Valid()` is "the list is not empty", `Key()`/`Val()` read its head
and `Next()` drops the head. -/
abbrev KvIterator := List Entry

/-- The result of the merge step: `(*index.PostingValue, error)`. -/
abbrev MergeResult := Option PostingValue × GoError

/-- The type `index.CompositePostingValueFn`: called with the term and value of the current
entry and the delegated cursor; returns its result and the position it leaves the cursor
at. -/
abbrev CompositePostingValueFn := Bytes → Bytes → KvIterator → MergeResult × KvIterator

/-- An `index.FieldIterator` seen from its caller: `Next()` returns true once for each
element of `pending`, in order, making it the value `Val()` returns, and false after the
last one; `Close()` returns `closeErr`. -/
structure FieldIterator where
  pending : List PostingValue
  closeErr : GoError
  deriving DecidableEq

/-- A `kv.Store` seen from `search.go`: `run k` is what a `GetAll` on key `k` does when its
visitor accepts every value, namely the values it hands to the visitor, in order, and the
error it returns afterwards; `entries` is what a cursor over the store delivers. -/
structure KvStore where
  run : Bytes → List Bytes × GoError
  entries : List Entry

/-- The visiting loop of `GetAll`: each value is handed to the visitor, the first visitor
error ends the lookup and is returned (section 9 of the spec: the visitor callback halts on
first error), otherwise the error of the lookup itself is returned. -/
def visitAll {σ : Type} (visit : Bytes → σ → σ × GoError) (final : GoError) :
    List Bytes → σ → σ × GoError
  | [], st => (st, final)
  | b :: bs, st =>
    if (visit b st).2 ≠ [] then visit b st else visitAll visit final bs (visit b st).1

/-- The call `kv.Store.GetAll(key, visit)`, threading the state the visitor closes over. -/
def KvStore.GetAll {σ : Type} (lsm : KvStore) (key : Bytes)
    (visit : Bytes → σ → σ × GoError) (st : σ) : σ × GoError :=
  visitAll visit (lsm.run key).2 (lsm.run key).1 st

/-- The `store` of package `lsm`. -/
structure store where
  lsm : KvStore
  termMetadata : TermMetadata

/-- What `search.go` calls in the packages `convert`, `index`, `kv` and `roaring`, taken as
parameters. -/
structure Deps where
  /-- The function `convert.BytesToUint64`. -/
  BytesToUint64 : Bytes → ItemID
  /-- The call `field.Marshal(termMetadata)`: the key, and the error. -/
  Marshal : Field → TermMetadata → Bytes × GoError
  /-- The call `f.Unmarshal(termMetadata, raw)`: the field as decoded, and the error. -/
  Unmarshal : TermMetadata → Bytes → Field × GoError
  /-- The call `list.Union(other)`: the receiver after the call, and the error. -/
  Union : PostingList → PostingList → PostingList × GoError
  /-- The sentinel `kv.ErrKeyNotFound`. -/
  ErrKeyNotFound : ErrAtom
  /-- The constructor `index.NewFieldIteratorTemplate`. -/
  NewFieldIteratorTemplate : FieldKey → RangeOpts → QueryOrder_Sort → KvStore →
    TermMetadata → CompositePostingValueFn → FieldIterator × GoError

/-! ## `go.uber.org/multierr` and `errors.Is` -/

/-- The function `multierr.Append(left, right)`: the other one when one of them is nil,
otherwise the compound of the parts of both. -/
def multierrAppend (left right : GoError) : GoError :=
  match left, right with
  | [], r => r
  | l, [] => l
  | l, r => l ++ r

/-- The walk of `errors.Is` on one error chain: the error itself or one it wraps is the
target. -/
def ErrAtom.is (target : ErrAtom) : ErrAtom → Bool
  | .sentinel n => decide (ErrAtom.sentinel n = target)
  | .wrap m c => decide (ErrAtom.wrap m c = target) || ErrAtom.is target c

/-- The function `errors.Is(err, target)` for a non-nil sentinel `target`: false on nil, the
chain walk on an ordinary error, and on a compound error whether some part matches. -/
def errorsIs (err : GoError) (target : ErrAtom) : Bool :=
  err.any (ErrAtom.is target)

/-! ## `search.go` -/

/-- The loop of the merge step (lines 75-85), run from the seeded posting list `pv`:
decode the key under the cursor, return the decode error if there is one, stop at a term
that differs from `term`, otherwise insert the entry and advance. -/
def mergeLoop (d : Deps) (s : store) (term : Bytes) :
    KvIterator → PostingList → MergeResult × KvIterator
  | [], pv => ((some ⟨term, pv⟩, []), [])
  | e :: rest, pv =>
    if (d.Unmarshal s.termMetadata e.key).2 ≠ [] then
      ((none, (d.Unmarshal s.termMetadata e.key).2), e :: rest)
    else if (d.Unmarshal s.termMetadata e.key).1.Term ≠ term then
      ((some ⟨term, pv⟩, []), e :: rest)
    else
      mergeLoop d s term rest (pv.Insert (d.BytesToUint64 e.val))

/-- The function literal of `Iterator` (lines 69-87): seed the posting value with the
converted `value`, then run the loop. -/
def mergeStep (d : Deps) (s : store) : CompositePostingValueFn :=
  fun term value delegated =>
    mergeLoop d s term delegated (NewPostingListWithInitialData [d.BytesToUint64 value])

/-- The method `store.Iterator` (lines 68-88). -/
def Iterator (d : Deps) (s : store) (fieldKey : FieldKey) (termRange : RangeOpts)
    (order : QueryOrder_Sort) : FieldIterator × GoError :=
  d.NewFieldIteratorTemplate fieldKey termRange order s.lsm s.termMetadata (mergeStep d s)

/-- The visitor that `MatchTerms` passes to `GetAll` (lines 45-48): insert the converted
item identifier into `list`, return nil. -/
def insertVisitor (d : Deps) (itemID : Bytes) (list : PostingList) : PostingList × GoError :=
  (list.Insert (d.BytesToUint64 itemID), [])

/-- Lines 44-48 of `MatchTerms`: the fresh list and the lookup; the list after the lookup
and the error of the lookup. -/
def lookupTerms (d : Deps) (s : store) (f : Bytes) : PostingList × GoError :=
  s.lsm.GetAll f (insertVisitor d) NewPostingList

/-- The method `store.MatchTerms` (lines 39-53). -/
def MatchTerms (d : Deps) (s : store) (field : Field) : Option PostingList × GoError :=
  if (d.Marshal field s.termMetadata).2 ≠ [] then
    (none, (d.Marshal field s.termMetadata).2)
  else if errorsIs (lookupTerms d s (d.Marshal field s.termMetadata).1).2 d.ErrKeyNotFound then
    (some EmptyPostingList, [])
  else
    (some (lookupTerms d s (d.Marshal field s.termMetadata).1).1,
     (lookupTerms d s (d.Marshal field s.termMetadata).1).2)

/-- A call that `Range` makes on its iterator or on its posting list, with what the call
returned; the list of these calls is kept next to the result of `Range` so that the order
of the calls can be stated. -/
inductive Call where
  | next (more : Bool)
  | val
  | union (err : GoError)
  | close (err : GoError)
  deriving DecidableEq, Repr

/-- The state of `Range` after the iterator was created: the named results `list` and
`err`, and the calls made so far. -/
structure RangeState where
  list : PostingList
  err : GoError
  calls : List Call
  deriving DecidableEq

/-- The loop `for iter.Next() { err = multierr.Append(err, list.Union(iter.Val().Value)) }`
of `Range` (lines 61-63), over the values the iterator has left. -/
def rangeLoop (d : Deps) : List PostingValue → RangeState → RangeState
  | [], st => { st with calls := st.calls ++ [Call.next false] }
  | p :: ps, st =>
    rangeLoop d ps
      { list := (d.Union st.list p.Value).1
        err := multierrAppend st.err (d.Union st.list p.Value).2
        calls := st.calls ++ [Call.next true, Call.val, Call.union (d.Union st.list p.Value).2] }

/-- Lines 60-65 of `Range`: the fresh list, the loop, and the close. -/
def rangeConsume (d : Deps) (iter : FieldIterator) : RangeState :=
  { list := (rangeLoop d iter.pending ⟨NewPostingList, [], []⟩).list
    err := multierrAppend (rangeLoop d iter.pending ⟨NewPostingList, [], []⟩).err iter.closeErr
    calls := (rangeLoop d iter.pending ⟨NewPostingList, [], []⟩).calls ++
      [Call.close iter.closeErr] }

/-- The method `store.Range` (lines 55-66), together with the calls it made on the
iterator (none when the iterator could not be created). -/
def rangeRun (d : Deps) (s : store) (fieldKey : FieldKey) (opts : RangeOpts) :
    (Option PostingList × GoError) × List Call :=
  if (Iterator d s fieldKey opts QueryOrder_Sort.SORT_ASC).2 ≠ [] then
    ((some EmptyPostingList, (Iterator d s fieldKey opts QueryOrder_Sort.SORT_ASC).2), [])
  else
    ((some (rangeConsume d (Iterator d s fieldKey opts QueryOrder_Sort.SORT_ASC).1).list,
      (rangeConsume d (Iterator d s fieldKey opts QueryOrder_Sort.SORT_ASC).1).err),
     (rangeConsume d (Iterator d s fieldKey opts QueryOrder_Sort.SORT_ASC).1).calls)

/-- The method `store.Range` (lines 55-66): what it returns. -/
def Range (d : Deps) (s : store) (fieldKey : FieldKey) (opts : RangeOpts) :
    Option PostingList × GoError :=
  (rangeRun d s fieldKey opts).1

/-- The method `store.MatchField` (lines 35-37). -/
def MatchField (d : Deps) (s : store) (fieldKey : FieldKey) : Option PostingList × GoError :=
  Range d s fieldKey RangeOpts.zero

/-! ## Driving the merge step -/

/-- Modelled from the spec: one `Next()` of the Field Iterator (section 4.3, steps 1, 2 and
3) on the cursor `cur`, the range check left aside: nothing is yielded on an exhausted
cursor or on a key that does not decode, otherwise the merge function is called with the
term and value of the current entry, and its posting value, if any, is yielded. -/
def advance (unmarshal : Bytes → Field × GoError) (fn : CompositePostingValueFn) :
    KvIterator → Option (PostingValue × KvIterator)
  | [] => none
  | e :: rest =>
    if (unmarshal e.key).2 ≠ [] then none
    else
      match fn (unmarshal e.key).1.Term e.val (e :: rest) with
      | ((some pv, _), cur) => some (pv, cur)
      | ((none, _), _) => none

/-- Modelled from the spec: a traversal, the values yielded by at most `n` successive
`Next()` calls that return true. -/
def traverse (unmarshal : Bytes → Field × GoError) (fn : CompositePostingValueFn) :
    Nat → KvIterator → List PostingValue
  | 0, _ => []
  | n + 1, cur =>
    match advance unmarshal fn cur with
    | none => []
    | some (pv, cur2) => pv :: traverse unmarshal fn n cur2

/-! ## Vocabulary of the properties -/

/-- Whether the key of an entry decodes. -/
def decodes (d : Deps) (s : store) (e : Entry) : Bool :=
  decide ((d.Unmarshal s.termMetadata e.key).2 = [])

/-- The term the key of an entry decodes to. -/
def termOf (d : Deps) (s : store) (e : Entry) : Bytes :=
  (d.Unmarshal s.termMetadata e.key).1.Term

/-- Whether the key of an entry decodes to a term byte-equal to `term`. -/
def sameTerm (d : Deps) (s : store) (term : Bytes) (e : Entry) : Bool :=
  decide (termOf d s e = term)

/-- The set of the item identifiers stored in a list of entries. -/
def itemIDs (d : Deps) (es : List Entry) : PostingList :=
  (es.map (fun e => d.BytesToUint64 e.val)).toFinset

/-- The check of `TermsAdjacent`: once the run of a term has ended, the term does not come
back. -/
def runsAdjacent : List Bytes → Bool
  | [] => true
  | t :: rest =>
    decide (t ∉ rest.dropWhile (fun x => decide (x = t))) && runsAdjacent rest

/-- Equal terms are adjacent in a list of terms, as they are when the entries come in key
order: whatever lies between two occurrences of a term is that term. -/
def TermsAdjacent (ts : List Bytes) : Prop :=
  ∀ l1 l2 l3 t, ts = l1 ++ t :: l2 ++ t :: l3 → ∀ x ∈ l2, x = t

/-- The error `e` is contained in the error `err`: the parts of `e` are consecutive parts of
`err`. -/
def GoError.contains (err e : GoError) : Prop :=
  ∃ before after, err = before ++ e ++ after

/-- The error of `Range` contains the error of every `Union` call made so far and is nil
exactly when they all are. -/
def ErrAggregates (st : RangeState) : Prop :=
  (∀ e, Call.union e ∈ st.calls → st.err.contains e) ∧
  (st.err = [] ↔ ∀ e, Call.union e ∈ st.calls → e = [])

/-! ## A small store for the worked scenarios -/

/-- Big-endian reading of a byte string as a `uint64`. -/
def sampleBytesToUint64 (b : Bytes) : ItemID :=
  b.foldl (fun acc x => (acc * 256 + x) % 2 ^ 64) 0

/-- The inverse of `sampleMarshal`; the empty key does not decode. -/
def sampleUnmarshal (_ : TermMetadata) : Bytes → Field × GoError
  | [] => (⟨⟨0⟩, []⟩, [ErrAtom.sentinel "short key"])
  | k :: t => (⟨⟨k⟩, t⟩, [])

/-- Whether a term lies within the bounds, terms compared as byte strings. -/
def sampleBetween (opts : RangeOpts) (term : Bytes) : Bool :=
  (match opts.Lower with
    | none => true
    | some lo => if opts.IncludesLower then decide (lo ≤ term) else decide (lo < term)) &&
  (match opts.Upper with
    | none => true
    | some up => if opts.IncludesUpper then decide (term ≤ up) else decide (term < up))

/-- The entries of a field within the bounds, in the direction of the traversal. -/
def sampleScope (fieldKey : FieldKey) (opts : RangeOpts) (order : QueryOrder_Sort)
    (tm : TermMetadata) (entries : List Entry) : List Entry :=
  (if order = QueryOrder_Sort.SORT_DESC then entries.reverse else entries).filter
    (fun e => decide ((sampleUnmarshal tm e.key).2 = []) &&
      decide ((sampleUnmarshal tm e.key).1.Key = fieldKey) &&
      sampleBetween opts (sampleUnmarshal tm e.key).1.Term)

/-- The sentinel of the sample store. -/
def sampleNotFound : ErrAtom := ErrAtom.sentinel "key not found"

/-- A key is the field identifier followed by the term; a field without a term does not
marshal. -/
def sampleMarshal (f : Field) (_ : TermMetadata) : Bytes × GoError :=
  if f.Term = [] then ([], [ErrAtom.sentinel "empty term"]) else (f.Key.id :: f.Term, [])

/-- An iterator template that runs the merge function over the entries of the field and
closes with `closeErr`; the field 0 has no iterator. -/
def sampleTemplate (closeErr : GoError) (fieldKey : FieldKey) (opts : RangeOpts)
    (order : QueryOrder_Sort) (lsm : KvStore) (tm : TermMetadata)
    (fn : CompositePostingValueFn) : FieldIterator × GoError :=
  if fieldKey.id = 0 then (⟨[], []⟩, [ErrAtom.sentinel "no such field"])
  else
    (⟨traverse (sampleUnmarshal tm) fn lsm.entries.length
        (sampleScope fieldKey opts order tm lsm.entries), closeErr⟩, [])

/-- Sample dependencies: every `Union` is set union when `unionErr` is nil and otherwise
fails with `unionErr`, leaving the receiver as it was; the iterator closes with
`closeErr`. -/
def sampleDeps (unionErr closeErr : GoError) : Deps where
  BytesToUint64 := sampleBytesToUint64
  Marshal := sampleMarshal
  Unmarshal := sampleUnmarshal
  Union := fun a b => if unionErr = [] then (a ∪ b, []) else (a, unionErr)
  ErrKeyNotFound := sampleNotFound
  NewFieldIteratorTemplate := sampleTemplate closeErr

/-- The item identifier `n < 256` as eight big-endian bytes. -/
def idBytes (n : Nat) : Bytes := [0, 0, 0, 0, 0, 0, 0, n]

/-- A store over a list of entries: a lookup visits the values stored under the key and
reports `lookupErr` afterwards, or reports not-found when there is none. -/
def sampleStore (entries : List Entry) (lookupErr : GoError) : store where
  lsm :=
    { run := fun k =>
        if (entries.filter (fun e => decide (e.key = k))).isEmpty then ([], [sampleNotFound])
        else ((entries.filter (fun e => decide (e.key = k))).map Entry.val, lookupErr)
      entries := entries }
  termMetadata := 0

/-- Term "A" of field 7 recorded at the items 10, 11 and 12. -/
def entriesA : List Entry :=
  [⟨[7, 65], idBytes 10⟩, ⟨[7, 65], idBytes 11⟩, ⟨[7, 65], idBytes 12⟩]

/-- Term "A" at the item 10, then an entry whose key does not decode, then term "B". -/
def entriesBroken : List Entry :=
  [⟨[7, 65], idBytes 10⟩, ⟨[], idBytes 11⟩, ⟨[7, 66], idBytes 12⟩]

/-- Field 7 with term "GET" at the items 1, 2, 3 and term "POST" at the items 4, 5. -/
def entriesGetPost : List Entry :=
  [⟨[7, 71, 69, 84], idBytes 1⟩, ⟨[7, 71, 69, 84], idBytes 2⟩, ⟨[7, 71, 69, 84], idBytes 3⟩,
   ⟨[7, 80, 79, 83, 84], idBytes 4⟩, ⟨[7, 80, 79, 83, 84], idBytes 5⟩]

/-! ## The merge step of `Iterator` -/

/-- On a cursor whose entries all decode, the loop adds the item identifiers of the longest
run of entries with the term `term` and leaves the cursor after that run. -/
theorem mergeLoop_of_decodable (d : Deps) (s : store) (term : Bytes) (cur : KvIterator)
    (hdec : ∀ e ∈ cur, decodes d s e = true) (pv : PostingList) :
    mergeLoop d s term cur pv =
      ((some ⟨term, pv ∪ itemIDs d (cur.takeWhile (sameTerm d s term))⟩, []),
        cur.dropWhile (sameTerm d s term)) := by
  induction cur generalizing pv with
  | nil => simp [mergeLoop, itemIDs]
  | cons e rest ih =>
    have he : (d.Unmarshal s.termMetadata e.key).2 = [] := by
      simpa [decodes] using hdec e (List.mem_cons_self e rest)
    have hrest : ∀ x ∈ rest, decodes d s x = true := fun x hx =>
      hdec x (List.mem_cons_of_mem e hx)
    by_cases ht : (d.Unmarshal s.termMetadata e.key).1.Term = term
    · have hs : sameTerm d s term e = true := by simp [sameTerm, termOf, ht]
      rw [mergeLoop, if_neg (by simp [he]), if_neg (by simp [ht]), ih hrest]
      simp [List.takeWhile_cons, List.dropWhile_cons, hs, itemIDs, PostingList.Insert]
    · have hs : sameTerm d s term e = false := by simp [sameTerm, termOf, ht]
      rw [mergeLoop, if_neg (by simp [he]), if_pos ht]
      simp [List.takeWhile_cons, List.dropWhile_cons, hs, itemIDs]

/-- The seeded list joined with a set is the set with the seed inserted. -/
theorem seed_union (id : ItemID) (ids : PostingList) :
    NewPostingListWithInitialData [id] ∪ ids = insert id ids := by
  simp [NewPostingListWithInitialData, Finset.insert_eq]

/-- C1: on a cursor whose remaining entries all decode, the merge step returns one posting
value with the term `term` whose set is the converted seed value together with the item
identifiers of the longest run of entries, from the current position, that decode to
`term`; it returns no error and leaves the cursor at the first entry after that run. -/
theorem mergeStep_coalesces (d : Deps) (s : store) (term value : Bytes) (cur : KvIterator)
    (hdec : ∀ e ∈ cur, decodes d s e = true) :
    mergeStep d s term value cur =
      ((some ⟨term, insert (d.BytesToUint64 value)
          (itemIDs d (cur.takeWhile (sameTerm d s term)))⟩, []),
        cur.dropWhile (sameTerm d s term)) := by
  rw [mergeStep, mergeLoop_of_decodable d s term cur hdec, seed_union]

/-- The scenario of three entries with term "A" at the items 10, 11 and 12: the merge step
yields the one value ("A", {10, 11, 12}). -/
theorem mergeStep_coalesces_witness :
    (∀ e ∈ entriesA, decodes (sampleDeps [] []) (sampleStore entriesA []) e = true) ∧
    mergeStep (sampleDeps [] []) (sampleStore entriesA []) [65] (idBytes 10) entriesA =
      ((some ⟨[65], {10, 11, 12}⟩, []), []) := by
  refine ⟨by decide, ?_⟩
  rw [mergeStep_coalesces (sampleDeps [] []) (sampleStore entriesA []) [65] (idBytes 10) entriesA
    (by decide)]
  simp [entriesA, sameTerm, termOf, itemIDs, sampleDeps, sampleUnmarshal, sampleBytesToUint64,
    idBytes, sampleStore]

/-- The loop fails with the decode error of the first entry that does not decode when the
entries before it all decode to `term`, and leaves the cursor on that entry. -/
theorem mergeLoop_decode_failure (d : Deps) (s : store) (term : Bytes)
    (before : List Entry) (e : Entry) (after : List Entry)
    (hbefore : ∀ x ∈ before, decodes d s x = true ∧ sameTerm d s term x = true)
    (he : decodes d s e = false) (pv : PostingList) :
    mergeLoop d s term (before ++ e :: after) pv =
      ((none, (d.Unmarshal s.termMetadata e.key).2), e :: after) := by
  induction before generalizing pv with
  | nil =>
    have h : (d.Unmarshal s.termMetadata e.key).2 ≠ [] := by simpa [decodes] using he
    simp [mergeLoop, h]
  | cons x xs ih =>
    have hx := hbefore x (List.mem_cons_self x xs)
    have hx1 : (d.Unmarshal s.termMetadata x.key).2 = [] := by simpa [decodes] using hx.1
    have hx2 : (d.Unmarshal s.termMetadata x.key).1.Term = term := by
      simpa [sameTerm, termOf] using hx.2
    rw [List.cons_append, mergeLoop, if_neg (by simp [hx1]), if_neg (by simp [hx2])]
    exact ih (fun y hy => hbefore y (List.mem_cons_of_mem x hy)) _

/-- The loop either meets an entry that does not decode after entries that all decode to
`term`, or returns a posting value and a nil error. -/
theorem mergeLoop_cases (d : Deps) (s : store) (term : Bytes) (cur : KvIterator)
    (pv : PostingList) :
    (∃ before e after, cur = before ++ e :: after ∧
      (∀ x ∈ before, decodes d s x = true ∧ sameTerm d s term x = true) ∧
      decodes d s e = false) ∨
    (∃ out, (mergeLoop d s term cur pv).1 = (some out, [])) := by
  induction cur generalizing pv with
  | nil => exact Or.inr ⟨⟨term, pv⟩, by simp [mergeLoop]⟩
  | cons e rest ih =>
    by_cases he : (d.Unmarshal s.termMetadata e.key).2 = []
    · by_cases ht : (d.Unmarshal s.termMetadata e.key).1.Term = term
      · rcases ih (pv.Insert (d.BytesToUint64 e.val)) with ⟨b, x, a, hcur, hb, hx⟩ | ⟨out, hout⟩
        · refine Or.inl ⟨e :: b, x, a, by simp [hcur], ?_, hx⟩
          intro y hy
          rcases List.mem_cons.mp hy with rfl | hy
          · simp [decodes, sameTerm, termOf, he, ht]
          · exact hb y hy
        · refine Or.inr ⟨out, ?_⟩
          rw [mergeLoop, if_neg (by simp [he]), if_neg (by simp [ht])]
          exact hout
      · refine Or.inr ⟨⟨term, pv⟩, ?_⟩
        rw [mergeLoop, if_neg (by simp [he]), if_pos ht]
    · exact Or.inl ⟨[], e, rest, by simp, by simp, by simp [decodes, he]⟩

/-- C8: the merge step returns a non-nil error exactly when, from the current position, an
entry that does not decode comes after entries that all decode to the current term; it then
returns the decode error of that entry and no posting value, and in every other case it
returns a posting value and a nil error. -/
theorem mergeStep_fails_iff (d : Deps) (s : store) (term value : Bytes) (cur : KvIterator) :
    ((mergeStep d s term value cur).1.2 ≠ [] ↔
      ∃ before e after, cur = before ++ e :: after ∧
        (∀ x ∈ before, decodes d s x = true ∧ sameTerm d s term x = true) ∧
        decodes d s e = false) ∧
    (∀ before e after, cur = before ++ e :: after →
      (∀ x ∈ before, decodes d s x = true ∧ sameTerm d s term x = true) →
      decodes d s e = false →
      (mergeStep d s term value cur).1 = (none, (d.Unmarshal s.termMetadata e.key).2) ∧
      (d.Unmarshal s.termMetadata e.key).2 ≠ []) ∧
    ((¬ ∃ before e after, cur = before ++ e :: after ∧
        (∀ x ∈ before, decodes d s x = true ∧ sameTerm d s term x = true) ∧
        decodes d s e = false) →
      ∃ out, (mergeStep d s term value cur).1 = (some out, [])) := by
  have hfail : ∀ before e after, cur = before ++ e :: after →
      (∀ x ∈ before, decodes d s x = true ∧ sameTerm d s term x = true) →
      decodes d s e = false →
      (mergeStep d s term value cur).1 = (none, (d.Unmarshal s.termMetadata e.key).2) ∧
      (d.Unmarshal s.termMetadata e.key).2 ≠ [] := by
    intro before e after hcur hb he
    refine ⟨?_, by simpa [decodes] using he⟩
    rw [mergeStep, hcur, mergeLoop_decode_failure d s term before e after hb he]
  have hok : (¬ ∃ before e after, cur = before ++ e :: after ∧
        (∀ x ∈ before, decodes d s x = true ∧ sameTerm d s term x = true) ∧
        decodes d s e = false) →
      ∃ out, (mergeStep d s term value cur).1 = (some out, []) := by
    intro hno
    rcases mergeLoop_cases d s term cur
      (NewPostingListWithInitialData [d.BytesToUint64 value]) with h | h
    · exact absurd h hno
    · exact h
  refine ⟨⟨?_, ?_⟩, hfail, hok⟩
  · intro herr
    by_contra hno
    obtain ⟨out, hout⟩ := hok hno
    rw [hout] at herr
    exact herr rfl
  · rintro ⟨before, e, after, hcur, hb, he⟩
    rw [(hfail before e after hcur hb he).1]
    exact (hfail before e after hcur hb he).2

/-- The scenario of an entry with a key that does not decode right after an entry of term
"A": the merge step for "A" fails with the decode error and yields no value. -/
theorem mergeStep_fails_iff_witness :
    (mergeStep (sampleDeps [] []) (sampleStore entriesBroken []) [65] (idBytes 10)
      entriesBroken).1 = (none, [ErrAtom.sentinel "short key"]) :=
  ((mergeStep_fails_iff (sampleDeps [] []) (sampleStore entriesBroken []) [65] (idBytes 10)
    entriesBroken).2.1 [⟨[7, 65], idBytes 10⟩] ⟨[], idBytes 11⟩ [⟨[7, 66], idBytes 12⟩]
    rfl (by decide) (by decide)).1

/-! ## Traversals over the merge step -/

theorem mem_dropWhile_append_of_false {α : Type} (p : α → Bool) (x t : α)
    (l2 l3 : List α) (hx : x ∈ l2) (hp : p x = false) :
    t ∈ (l2 ++ t :: l3).dropWhile p := by
  induction l2 with
  | nil => cases hx
  | cons a l ih =>
    rw [List.cons_append, List.dropWhile_cons]
    split
    · rename_i ha
      rcases List.mem_cons.mp hx with rfl | hx
      · rw [hp] at ha; cases ha
      · exact ih hx
    · simp

theorem termsAdjacent_tail (a : Bytes) (rest : List Bytes) (h : TermsAdjacent (a :: rest)) :
    TermsAdjacent rest := by
  intro l1 l2 l3 t hrest x hx
  exact h (a :: l1) l2 l3 t (by simp [hrest]) x hx

theorem runsAdjacent_iff (ts : List Bytes) : runsAdjacent ts = true ↔ TermsAdjacent ts := by
  induction ts with
  | nil =>
    simp only [runsAdjacent, true_iff]
    intro l1 l2 l3 t h
    simp at h
  | cons a rest ih =>
    simp only [runsAdjacent, Bool.and_eq_true, decide_eq_true_eq]
    constructor
    · rintro ⟨hno, hrest⟩ l1 l2 l3 t hts x hx
      cases l1 with
      | nil =>
        simp only [List.nil_append, List.cons_append, List.cons.injEq] at hts
        obtain ⟨rfl, hr⟩ := hts
        by_contra hne
        apply hno
        rw [hr]
        exact mem_dropWhile_append_of_false _ x a l2 l3 hx (by simp [hne])
      | cons b l1 =>
        simp only [List.cons_append, List.cons.injEq] at hts
        exact (ih.mp hrest) l1 l2 l3 t (by simp [hts.2]) x hx
    · intro h
      refine ⟨?_, ih.mpr (termsAdjacent_tail a rest h)⟩
      intro hmem
      have hsplit := List.takeWhile_append_dropWhile (fun x => decide (x = a)) rest
      cases hd : rest.dropWhile (fun x => decide (x = a)) with
      | nil => rw [hd] at hmem; cases hmem
      | cons y r =>
        have hy : decide (y = a) = false := by
          have := List.head_dropWhile_not (fun x => decide (x = a)) rest (by rw [hd]; simp)
          simpa [hd] using this
        have hya : y ≠ a := by simpa using hy
        rw [hd] at hmem hsplit
        rcases List.mem_cons.mp hmem with h1 | h1
        · exact hya h1.symm
        · obtain ⟨r1, r2, hr⟩ := List.append_of_mem h1
          generalize List.takeWhile (fun x => decide (x = a)) rest = tw at hsplit
          have := h [] (tw ++ y :: r1) r2 a (by rw [← hsplit, hr]; simp) y (by simp)
          exact hya this
theorem runsAdjacent_dropWhile (p : Bytes → Bool) (ts : List Bytes)
    (h : runsAdjacent ts = true) : runsAdjacent (ts.dropWhile p) = true := by
  induction ts with
  | nil => simpa using h
  | cons t rest ih =>
    have hrest : runsAdjacent rest = true := by
      simp only [runsAdjacent, Bool.and_eq_true] at h
      exact h.2
    rw [List.dropWhile_cons]
    split
    · exact ih hrest
    · exact h

theorem mem_dropWhile_of_false {α : Type} (p : α → Bool) (x : α) (l : List α)
    (hx : x ∈ l) (hp : p x = false) : x ∈ l.dropWhile p := by
  induction l with
  | nil => cases hx
  | cons a l ih =>
    rw [List.dropWhile_cons]
    split
    · rename_i ha
      rcases List.mem_cons.mp hx with rfl | hx
      · rw [hp] at ha; cases ha
      · exact ih hx
    · exact hx

theorem mem_of_mem_dropWhile {α : Type} (p : α → Bool) (x : α) (l : List α)
    (hx : x ∈ l.dropWhile p) : x ∈ l :=
  (List.dropWhile_suffix p).subset hx

theorem length_dropWhile_le {α : Type} (p : α → Bool) (l : List α) :
    (l.dropWhile p).length ≤ l.length :=
  (List.dropWhile_suffix p).length_le

/-- One `Next()` over the merge step, on a cursor whose entries all decode. -/
theorem advance_mergeStep (d : Deps) (s : store) (e : Entry) (rest : List Entry)
    (hdec : ∀ x ∈ e :: rest, decodes d s x = true) :
    advance (d.Unmarshal s.termMetadata) (mergeStep d s) (e :: rest) =
      some (⟨termOf d s e, insert (d.BytesToUint64 e.val)
          (itemIDs d ((e :: rest).takeWhile (sameTerm d s (termOf d s e))))⟩,
        rest.dropWhile (sameTerm d s (termOf d s e))) := by
  have he : (d.Unmarshal s.termMetadata e.key).2 = [] := by
    simpa [decodes] using hdec e (List.mem_cons_self e rest)
  have hs : sameTerm d s (termOf d s e) e = true := by simp [sameTerm]
  rw [advance, if_neg (by simp [he])]
  have h := mergeLoop_of_decodable d s (termOf d s e) (e :: rest) hdec
    (NewPostingListWithInitialData [d.BytesToUint64 e.val])
  rw [seed_union, termOf] at h
  rw [mergeStep, h]
  rw [termOf] at hs
  simp [List.dropWhile_cons, hs, termOf]

theorem traverse_terms_subset (d : Deps) (s : store) (n : Nat) (cur : KvIterator)
    (hdec : ∀ e ∈ cur, decodes d s e = true) :
    ∀ t ∈ (traverse (d.Unmarshal s.termMetadata) (mergeStep d s) n cur).map PostingValue.Term,
      t ∈ cur.map (termOf d s) := by
  induction n generalizing cur with
  | zero => intro t ht; simp [traverse] at ht
  | succ n ih =>
    cases cur with
    | nil => intro t ht; simp [traverse, advance] at ht
    | cons e rest =>
      intro t ht
      rw [traverse, advance_mergeStep d s e rest hdec] at ht
      simp only [List.map_cons, List.mem_cons] at ht
      rcases ht with rfl | ht
      · simp
      · have hsub : ∀ x ∈ rest.dropWhile (sameTerm d s (termOf d s e)), decodes d s x = true :=
          fun x hx => hdec x (List.mem_cons_of_mem e (mem_of_mem_dropWhile _ x rest hx))
        have := ih _ hsub t ht
        obtain ⟨x, hx, rfl⟩ := List.mem_map.mp this
        exact List.mem_map.mpr ⟨x, List.mem_cons_of_mem e (mem_of_mem_dropWhile _ x rest hx), rfl⟩

theorem map_dropWhile_sameTerm (d : Deps) (s : store) (t : Bytes) (l : List Entry) :
    (l.dropWhile (sameTerm d s t)).map (termOf d s) =
      (l.map (termOf d s)).dropWhile (fun x => decide (x = t)) := by
  induction l with
  | nil => simp
  | cons a l ih =>
    by_cases h : termOf d s a = t
    · simp [List.dropWhile_cons, sameTerm, h, ih]
    · simp [List.dropWhile_cons, sameTerm, h]

theorem traverse_terms_nodup (d : Deps) (s : store) (n : Nat) (cur : KvIterator)
    (hdec : ∀ e ∈ cur, decodes d s e = true)
    (hadj : runsAdjacent (cur.map (termOf d s)) = true) :
    ((traverse (d.Unmarshal s.termMetadata) (mergeStep d s) n cur).map
      PostingValue.Term).Nodup := by
  induction n generalizing cur with
  | zero => simp [traverse]
  | succ n ih =>
    cases cur with
    | nil => simp [traverse, advance]
    | cons e rest =>
      rw [traverse, advance_mergeStep d s e rest hdec]
      simp only [List.map_cons, List.nodup_cons]
      have hsub : ∀ x ∈ rest.dropWhile (sameTerm d s (termOf d s e)), decodes d s x = true :=
        fun x hx => hdec x (List.mem_cons_of_mem e (mem_of_mem_dropWhile _ x rest hx))
      simp only [List.map_cons, runsAdjacent, Bool.and_eq_true, decide_eq_true_eq] at hadj
      refine ⟨?_, ih _ hsub ?_⟩
      · intro hmem
        have := traverse_terms_subset d s n _ hsub _ hmem
        rw [map_dropWhile_sameTerm] at this
        exact hadj.1 this
      · rw [map_dropWhile_sameTerm]
        exact runsAdjacent_dropWhile _ _ hadj.2

theorem traverse_covers (d : Deps) (s : store) (n : Nat) (cur : KvIterator)
    (hdec : ∀ e ∈ cur, decodes d s e = true) (hn : cur.length ≤ n) :
    ∀ e ∈ cur, termOf d s e ∈
      (traverse (d.Unmarshal s.termMetadata) (mergeStep d s) n cur).map PostingValue.Term := by
  induction n generalizing cur with
  | zero =>
    intro e he
    have : cur = [] := List.length_eq_zero.mp (Nat.le_zero.mp hn)
    rw [this] at he; cases he
  | succ n ih =>
    cases cur with
    | nil => intro e he; cases he
    | cons a rest =>
      intro e he
      rw [traverse, advance_mergeStep d s a rest hdec]
      simp only [List.map_cons, List.mem_cons]
      by_cases hsame : termOf d s e = termOf d s a
      · exact Or.inl hsame
      · right
        have hsub : ∀ x ∈ rest.dropWhile (sameTerm d s (termOf d s a)), decodes d s x = true :=
          fun x hx => hdec x (List.mem_cons_of_mem a (mem_of_mem_dropWhile _ x rest hx))
        have hlen : (rest.dropWhile (sameTerm d s (termOf d s a))).length ≤ n := by
          have h1 := length_dropWhile_le (sameTerm d s (termOf d s a)) rest
          simp only [List.length_cons] at hn
          omega
        have herest : e ∈ rest := by
          rcases List.mem_cons.mp he with rfl | h
          · exact absurd rfl hsame
          · exact h
        exact ih _ hsub hlen e
          (mem_dropWhile_of_false _ e rest herest (by simp [sameTerm, hsame]))

theorem mergeLoop_rest (d : Deps) (s : store) (term : Bytes) (cur : KvIterator)
    (pv : PostingList) (out : PostingValue)
    (h : (mergeLoop d s term cur pv).1.1 = some out) :
    out.Term = term ∧
    ((mergeLoop d s term cur pv).2 = [] ∨
      ∃ e rest, (mergeLoop d s term cur pv).2 = e :: rest ∧ decodes d s e = true ∧
        termOf d s e ≠ term) := by
  induction cur generalizing pv with
  | nil =>
    simp only [mergeLoop, Option.some.injEq] at h
    exact ⟨by rw [← h], Or.inl (by simp [mergeLoop])⟩
  | cons e rest ih =>
    by_cases he : (d.Unmarshal s.termMetadata e.key).2 = []
    · by_cases ht : (d.Unmarshal s.termMetadata e.key).1.Term = term
      · rw [mergeLoop, if_neg (by simp [he]), if_neg (by simp [ht])] at h ⊢
        exact ih _ h
      · rw [mergeLoop, if_neg (by simp [he]), if_pos ht] at h ⊢
        simp only [Option.some.injEq] at h
        exact ⟨by rw [← h], Or.inr ⟨e, rest, rfl, by simp [decodes, he], ht⟩⟩
    · rw [mergeLoop, if_pos he] at h
      cases h

/-- C6: in a traversal that runs the merge step of `Iterator` again and again, each step
seeded with the term and value of the current entry, over a cursor whose entries all decode
and in which equal terms are adjacent, no term is yielded twice; once the cursor is used up
every term of the cursor has been yielded; and after each successful step the cursor is
exhausted or rests on an entry that decodes to a term other than the one just yielded. -/
theorem traversal_terms_no_repeat (d : Deps) (s : store) (cur : KvIterator) (n : Nat)
    (hdec : ∀ e ∈ cur, decodes d s e = true)
    (hadj : TermsAdjacent (cur.map (termOf d s))) :
    ((traverse (d.Unmarshal s.termMetadata) (mergeStep d s) n cur).map
      PostingValue.Term).Nodup ∧
    (cur.length ≤ n → ∀ e ∈ cur, termOf d s e ∈
      (traverse (d.Unmarshal s.termMetadata) (mergeStep d s) n cur).map PostingValue.Term) ∧
    (∀ term value c out, (mergeStep d s term value c).1.1 = some out →
      out.Term = term ∧
      ((mergeStep d s term value c).2 = [] ∨
        ∃ e rest, (mergeStep d s term value c).2 = e :: rest ∧ decodes d s e = true ∧
          termOf d s e ≠ term)) :=
  ⟨traverse_terms_nodup d s n cur hdec ((runsAdjacent_iff _).mpr hadj),
   traverse_covers d s n cur hdec,
   fun term _ c out h => mergeLoop_rest d s term c _ out h⟩

/-- The scenario of "GET" at three items followed by "POST" at two: the traversal yields
the terms "GET" and "POST", once each. -/
theorem traversal_terms_no_repeat_witness :
    (∀ e ∈ entriesGetPost, decodes (sampleDeps [] []) (sampleStore entriesGetPost []) e = true) ∧
    TermsAdjacent (entriesGetPost.map
      (termOf (sampleDeps [] []) (sampleStore entriesGetPost []))) ∧
    ((traverse ((sampleDeps [] []).Unmarshal (sampleStore entriesGetPost []).termMetadata)
      (mergeStep (sampleDeps [] []) (sampleStore entriesGetPost [])) 5 entriesGetPost).map
      PostingValue.Term).Nodup ∧
    (traverse ((sampleDeps [] []).Unmarshal (sampleStore entriesGetPost []).termMetadata)
      (mergeStep (sampleDeps [] []) (sampleStore entriesGetPost [])) 5 entriesGetPost).map
      PostingValue.Term = [[71, 69, 84], [80, 79, 83, 84]] :=
  ⟨by decide, (runsAdjacent_iff _).mp (by decide),
   (traversal_terms_no_repeat (sampleDeps [] []) (sampleStore entriesGetPost []) entriesGetPost 5
     (by decide) ((runsAdjacent_iff _).mp (by decide))).1,
   by decide⟩

/-! ## `MatchTerms` -/

/-- The visitor of `MatchTerms` never fails, so the lookup hands it every value: the list
gains the converted identifiers of all of them and the error is the one of the lookup. -/
theorem visitAll_insertVisitor (d : Deps) (final : GoError) (bs : List Bytes)
    (st : PostingList) :
    visitAll (insertVisitor d) final bs st = (st ∪ (bs.map d.BytesToUint64).toFinset, final) := by
  induction bs generalizing st with
  | nil => simp [visitAll]
  | cons b bs ih =>
    rw [visitAll, if_neg (by simp [insertVisitor]), ih]
    simp [insertVisitor, PostingList.Insert]

/-- What the lookup of `MatchTerms` returns. -/
theorem lookupTerms_eq (d : Deps) (s : store) (f : Bytes) :
    lookupTerms d s f = (((s.lsm.run f).1.map d.BytesToUint64).toFinset, (s.lsm.run f).2) := by
  rw [lookupTerms, KvStore.GetAll, visitAll_insertVisitor]
  simp [NewPostingList]

/-- C2: when the field marshals and the `GetAll` call of `MatchTerms` returns an error that
is, or wraps, `kv.ErrKeyNotFound`, `MatchTerms` returns the empty posting set and a nil
error, whatever the visitor inserted during the lookup. -/
theorem MatchTerms_key_not_found (d : Deps) (s : store) (field : Field)
    (hm : (d.Marshal field s.termMetadata).2 = [])
    (hnf : errorsIs (s.lsm.GetAll (d.Marshal field s.termMetadata).1 (insertVisitor d)
      NewPostingList).2 d.ErrKeyNotFound = true) :
    MatchTerms d s field = (some ∅, []) := by
  rw [MatchTerms, if_neg (by simp [hm]), lookupTerms, if_pos hnf]
  rfl

/-- A lookup that hands the item 1 to the visitor and then reports a wrapped not-found
error: `MatchTerms` returns the empty set and no error. -/
theorem MatchTerms_key_not_found_witness :
    MatchTerms (sampleDeps [] [])
      ⟨⟨fun _ => ([idBytes 1], [ErrAtom.wrap "lookup" sampleNotFound]), []⟩, 0⟩
      ⟨⟨7⟩, [71, 69, 84]⟩ = (some ∅, []) :=
  MatchTerms_key_not_found (sampleDeps [] [])
    ⟨⟨fun _ => ([idBytes 1], [ErrAtom.wrap "lookup" sampleNotFound]), []⟩, 0⟩
    ⟨⟨7⟩, [71, 69, 84]⟩ (by decide) (by decide)

/-- C3: when the field marshals to the key `k` and `GetAll(k, visit)` hands the byte
strings `bs` to the visitor and then returns no error, `MatchTerms` returns a nil error and
the posting set whose members are exactly the converted elements of `bs`; the visitor
returns nil on every value. -/
theorem MatchTerms_visits_all (d : Deps) (s : store) (field : Field) (bs : List Bytes)
    (hm : (d.Marshal field s.termMetadata).2 = [])
    (hrun : s.lsm.run (d.Marshal field s.termMetadata).1 = (bs, [])) :
    MatchTerms d s field = (some (bs.map d.BytesToUint64).toFinset, []) ∧
    (∀ x, x ∈ (bs.map d.BytesToUint64).toFinset ↔ ∃ b ∈ bs, d.BytesToUint64 b = x) ∧
    (∀ b list, (insertVisitor d b list).2 = []) := by
  refine ⟨?_, by simp, fun _ _ => rfl⟩
  rw [MatchTerms, if_neg (by simp [hm]), lookupTerms_eq, hrun]
  simp [errorsIs]

/-- The scenario of term "GET" stored at the items 1, 2 and 3: `MatchTerms` gives
{1, 2, 3}. -/
theorem MatchTerms_visits_all_witness :
    MatchTerms (sampleDeps [] []) (sampleStore entriesGetPost []) ⟨⟨7⟩, [71, 69, 84]⟩ =
      (some {1, 2, 3}, []) := by
  have h := (MatchTerms_visits_all (sampleDeps [] []) (sampleStore entriesGetPost [])
    ⟨⟨7⟩, [71, 69, 84]⟩ [idBytes 1, idBytes 2, idBytes 3] (by decide) (by decide)).1
  rw [h]
  simp [sampleDeps, sampleBytesToUint64, idBytes]

/-! ## `Range` and `MatchField` -/

theorem multierrAppend_eq (left right : GoError) : multierrAppend left right = left ++ right := by
  cases left <;> cases right <;> simp [multierrAppend]

theorem contains_append_left (err e extra : GoError) (h : err.contains e) :
    (err ++ extra).contains e := by
  obtain ⟨before, after, rfl⟩ := h
  exact ⟨before, after ++ extra, by simp⟩

theorem contains_append_right (err e : GoError) : (err ++ e).contains e :=
  ⟨err, [], by simp⟩

theorem rangeLoop_aggregates (d : Deps) (ps : List PostingValue) (st : RangeState)
    (h : ErrAggregates st) : ErrAggregates (rangeLoop d ps st) := by
  induction ps generalizing st with
  | nil =>
    simpa [rangeLoop, ErrAggregates] using h
  | cons p ps ih =>
    rw [rangeLoop]
    apply ih
    obtain ⟨h1, h2⟩ := h
    constructor
    · intro e he
      simp only [List.mem_append, List.mem_cons, Call.union.injEq, List.mem_singleton,
        reduceCtorEq, false_or, List.not_mem_nil, or_false] at he
      rw [multierrAppend_eq]
      rcases he with he | rfl
      · exact contains_append_left _ _ _ (h1 e he)
      · exact contains_append_right _ _
    · rw [multierrAppend_eq]
      simp only [List.append_eq_nil, List.mem_append, List.mem_cons, Call.union.injEq,
        List.mem_singleton, reduceCtorEq, false_or, List.not_mem_nil, or_false]
      constructor
      · rintro ⟨ha, hb⟩ e (he | rfl)
        · exact h2.mp ha e he
        · exact hb
      · intro hall
        exact ⟨h2.mpr (fun e he => hall e (Or.inl he)), hall _ (Or.inr rfl)⟩

/-- The calls of the loop: after the calls made before, calls that are neither a `Next()`
returning false nor a `Close()`, and then the `Next()` that returns false. -/
theorem rangeLoop_calls (d : Deps) (ps : List PostingValue) (st : RangeState) :
    ∃ body, (rangeLoop d ps st).calls = st.calls ++ body ++ [Call.next false] ∧
      ∀ c ∈ body, c ≠ Call.next false ∧ ∀ e, c ≠ Call.close e := by
  induction ps generalizing st with
  | nil => exact ⟨[], by simp [rangeLoop], by simp⟩
  | cons p ps ih =>
    rw [rangeLoop]
    obtain ⟨body, hcalls, hbody⟩ := ih
      { list := (d.Union st.list p.Value).1
        err := multierrAppend st.err (d.Union st.list p.Value).2
        calls := st.calls ++
          [Call.next true, Call.val, Call.union (d.Union st.list p.Value).2] }
    refine ⟨[Call.next true, Call.val, Call.union (d.Union st.list p.Value).2] ++ body,
      by rw [hcalls]; simp, ?_⟩
    intro c hc
    simp only [List.cons_append, List.nil_append, List.mem_cons] at hc
    rcases hc with rfl | rfl | rfl | hc
    · simp
    · simp
    · simp
    · exact hbody c hc

/-- When every `Union` call returned nil and a successful `Union` is set union, the loop
leaves the error as it was and adds the members of every value to the list. -/
theorem rangeLoop_all_unions_ok (d : Deps) (ps : List PostingValue) (st : RangeState)
    (hU : ∀ a b, (d.Union a b).2 = [] → (d.Union a b).1 = a ∪ b)
    (hok : ∀ e, Call.union e ∈ (rangeLoop d ps st).calls → e = []) :
    (rangeLoop d ps st).err = st.err ∧
    ∀ x, x ∈ (rangeLoop d ps st).list ↔ x ∈ st.list ∨ ∃ p ∈ ps, x ∈ p.Value := by
  induction ps generalizing st with
  | nil => simp [rangeLoop]
  | cons p ps ih =>
    obtain ⟨body, hcalls, -⟩ := rangeLoop_calls d ps
      { list := (d.Union st.list p.Value).1
        err := multierrAppend st.err (d.Union st.list p.Value).2
        calls := st.calls ++
          [Call.next true, Call.val, Call.union (d.Union st.list p.Value).2] }
    rw [rangeLoop] at hok ⊢
    have hu : (d.Union st.list p.Value).2 = [] := by
      apply hok
      rw [hcalls]
      simp
    obtain ⟨herr, hlist⟩ := ih _ hok
    refine ⟨by rw [herr, hu, multierrAppend_eq]; simp, ?_⟩
    intro x
    rw [hlist x]
    simp only [hU _ _ hu, Finset.mem_union, List.mem_cons, exists_eq_or_imp]
    tauto

/-- C5: `MatchField(fieldKey)` returns the posting set and the error that
`Range(fieldKey, RangeOpts{})`, with both bounds unset, returns. -/
theorem MatchField_eq_Range (d : Deps) (s : store) (fieldKey : FieldKey) :
    MatchField d s fieldKey = Range d s fieldKey RangeOpts.zero ∧
    RangeOpts.zero.Upper = none ∧ RangeOpts.zero.Lower = none :=
  ⟨rfl, rfl, rfl⟩

/-- C4: when the iterator, opened by `Iterator` in ascending order with the range options
of the caller, is created, every `Union` call returns nil (a `Union` that returns nil being
set union) and `Close` returns nil, `Range` returns a nil error and a posting set whose
members are exactly the members of the values the iterator yields. -/
theorem Range_unions_all (d : Deps) (s : store) (fieldKey : FieldKey) (opts : RangeOpts)
    (hcreated : (Iterator d s fieldKey opts QueryOrder_Sort.SORT_ASC).2 = [])
    (hU : ∀ a b, (d.Union a b).2 = [] → (d.Union a b).1 = a ∪ b)
    (hok : ∀ e, Call.union e ∈ (rangeRun d s fieldKey opts).2 → e = [])
    (hclose : (Iterator d s fieldKey opts QueryOrder_Sort.SORT_ASC).1.closeErr = []) :
    ∃ list, Range d s fieldKey opts = (some list, []) ∧
      ∀ x, x ∈ list ↔
        ∃ p ∈ (Iterator d s fieldKey opts QueryOrder_Sort.SORT_ASC).1.pending, x ∈ p.Value := by
  rw [rangeRun, if_neg (by simp [hcreated])] at hok
  simp only [rangeConsume] at hok
  have hloop := rangeLoop_all_unions_ok d
    (Iterator d s fieldKey opts QueryOrder_Sort.SORT_ASC).1.pending ⟨NewPostingList, [], []⟩ hU
    (fun e he => hok e (List.mem_append_left _ he))
  refine ⟨(rangeLoop d (Iterator d s fieldKey opts QueryOrder_Sort.SORT_ASC).1.pending
    ⟨NewPostingList, [], []⟩).list, ?_, fun x => ?_⟩
  · rw [Range, rangeRun, if_neg (by simp [hcreated])]
    simp only [rangeConsume, hloop.1, hclose, multierrAppend]
  · rw [hloop.2 x]
    simp [NewPostingList]

/-- The scenario of "GET" at the items 1, 2, 3 and "POST" at the items 4, 5: `Range` with
unrestricted bounds gives {1, 2, 3, 4, 5} and no error. -/
theorem Range_unions_all_witness :
    Range (sampleDeps [] []) (sampleStore entriesGetPost []) ⟨7⟩ RangeOpts.zero =
      (some {1, 2, 3, 4, 5}, []) := by
  have hcalls : (rangeRun (sampleDeps [] []) (sampleStore entriesGetPost []) ⟨7⟩
      RangeOpts.zero).2 = [Call.next true, Call.val, Call.union [], Call.next true, Call.val,
        Call.union [], Call.next false, Call.close []] := by decide
  obtain ⟨list, hr, hmem⟩ := Range_unions_all (sampleDeps [] []) (sampleStore entriesGetPost [])
    ⟨7⟩ RangeOpts.zero (by decide) (fun _ _ _ => by simp [sampleDeps])
    (by intro e he; rw [hcalls] at he; simpa using he) (by decide)
  have hterms : ((Iterator (sampleDeps [] []) (sampleStore entriesGetPost []) ⟨7⟩ RangeOpts.zero
      QueryOrder_Sort.SORT_ASC).1.pending.map PostingValue.Value) =
      [{1, 2, 3}, {4, 5}] := by
    simp [Iterator, sampleDeps, sampleTemplate, sampleStore, entriesGetPost, sampleScope,
      sampleUnmarshal, sampleBetween, RangeOpts.zero, traverse, advance, mergeStep, mergeLoop,
      NewPostingListWithInitialData, PostingList.Insert, sampleBytesToUint64, idBytes]
    constructor <;> (ext x; simp; tauto)
  have hlist : list = {1, 2, 3, 4, 5} := by
    ext x
    have hvals : (∃ p ∈ (Iterator (sampleDeps [] []) (sampleStore entriesGetPost []) ⟨7⟩
        RangeOpts.zero QueryOrder_Sort.SORT_ASC).1.pending, x ∈ p.Value) ↔
        ∃ v ∈ (Iterator (sampleDeps [] []) (sampleStore entriesGetPost []) ⟨7⟩
          RangeOpts.zero QueryOrder_Sort.SORT_ASC).1.pending.map PostingValue.Value, x ∈ v := by
      simp [List.mem_map]
    rw [hmem x, hvals, hterms]
    simp
    tauto
  rw [hr, hlist]

/-- What `Range` returns and the calls it makes once the iterator is created. -/
theorem rangeRun_created (d : Deps) (s : store) (fieldKey : FieldKey) (opts : RangeOpts)
    (hcreated : (Iterator d s fieldKey opts QueryOrder_Sort.SORT_ASC).2 = []) :
    rangeRun d s fieldKey opts =
      ((some (rangeLoop d (Iterator d s fieldKey opts QueryOrder_Sort.SORT_ASC).1.pending
          ⟨NewPostingList, [], []⟩).list,
        (rangeLoop d (Iterator d s fieldKey opts QueryOrder_Sort.SORT_ASC).1.pending
          ⟨NewPostingList, [], []⟩).err ++
          (Iterator d s fieldKey opts QueryOrder_Sort.SORT_ASC).1.closeErr),
       (rangeLoop d (Iterator d s fieldKey opts QueryOrder_Sort.SORT_ASC).1.pending
          ⟨NewPostingList, [], []⟩).calls ++
          [Call.close (Iterator d s fieldKey opts QueryOrder_Sort.SORT_ASC).1.closeErr]) := by
  rw [rangeRun, if_neg (by simp [hcreated])]
  simp only [rangeConsume, multierrAppend_eq]

/-- C7: in a run of `Range` in which the iterator is created, the returned error contains
the error of every `Union` call and the error of `Close`, and it is nil exactly when every
`Union` call and `Close` returned nil. -/
theorem Range_error_aggregates (d : Deps) (s : store) (fieldKey : FieldKey) (opts : RangeOpts)
    (hcreated : (Iterator d s fieldKey opts QueryOrder_Sort.SORT_ASC).2 = []) :
    (∀ e1, Call.union e1 ∈ (rangeRun d s fieldKey opts).2 →
      (Range d s fieldKey opts).2.contains e1) ∧
    (∀ e2, Call.close e2 ∈ (rangeRun d s fieldKey opts).2 →
      (Range d s fieldKey opts).2.contains e2) ∧
    Call.close (Iterator d s fieldKey opts QueryOrder_Sort.SORT_ASC).1.closeErr ∈
      (rangeRun d s fieldKey opts).2 ∧
    ((Range d s fieldKey opts).2 = [] ↔
      (∀ e, Call.union e ∈ (rangeRun d s fieldKey opts).2 → e = []) ∧
      (∀ e, Call.close e ∈ (rangeRun d s fieldKey opts).2 → e = [])) := by
  have hagg := rangeLoop_aggregates d
    (Iterator d s fieldKey opts QueryOrder_Sort.SORT_ASC).1.pending ⟨NewPostingList, [], []⟩
    ⟨by simp, by simp⟩
  obtain ⟨body, hcalls, hbody⟩ := rangeLoop_calls d
    (Iterator d s fieldKey opts QueryOrder_Sort.SORT_ASC).1.pending ⟨NewPostingList, [], []⟩
  have hclose : ∀ e, Call.close e ∈ (rangeRun d s fieldKey opts).2 ↔
      e = (Iterator d s fieldKey opts QueryOrder_Sort.SORT_ASC).1.closeErr := by
    intro e
    rw [rangeRun_created d s fieldKey opts hcreated, hcalls]
    simp only [List.nil_append, List.mem_append, List.mem_singleton, Call.close.injEq,
      reduceCtorEq, or_false, false_or]
    constructor
    · rintro (h | h)
      · exact absurd rfl ((hbody _ h).2 e)
      · exact h
    · exact Or.inr
  have hunion : ∀ e, Call.union e ∈ (rangeRun d s fieldKey opts).2 ↔
      Call.union e ∈ (rangeLoop d (Iterator d s fieldKey opts QueryOrder_Sort.SORT_ASC).1.pending
        ⟨NewPostingList, [], []⟩).calls := by
    intro e
    rw [rangeRun_created d s fieldKey opts hcreated]
    simp
  have herr : (Range d s fieldKey opts).2 =
      (rangeLoop d (Iterator d s fieldKey opts QueryOrder_Sort.SORT_ASC).1.pending
        ⟨NewPostingList, [], []⟩).err ++
        (Iterator d s fieldKey opts QueryOrder_Sort.SORT_ASC).1.closeErr := by
    rw [Range, rangeRun_created d s fieldKey opts hcreated]
  refine ⟨?_, ?_, (hclose _).mpr rfl, ?_⟩
  · intro e1 h1
    rw [herr]
    exact contains_append_left _ _ _ (hagg.1 e1 ((hunion e1).mp h1))
  · intro e2 h2
    rw [herr, (hclose e2).mp h2]
    exact contains_append_right _ _
  · rw [herr, List.append_eq_nil, hagg.2]
    constructor
    · rintro ⟨h1, h2⟩
      exact ⟨fun e he => h1 e ((hunion e).mp he), fun e he => by rw [(hclose e).mp he, h2]⟩
    · rintro ⟨h1, h2⟩
      exact ⟨fun e he => h1 e ((hunion e).mpr he), h2 _ ((hclose _).mpr rfl)⟩

/-- Two values whose `Union` fails and a `Close` that fails: the error of `Range` has the
two `Union` errors and the `Close` error as its parts. -/
theorem Range_error_aggregates_witness :
    (Range (sampleDeps [ErrAtom.sentinel "union"] [ErrAtom.sentinel "close"])
      (sampleStore entriesGetPost []) ⟨7⟩ RangeOpts.zero).2.contains
      [ErrAtom.sentinel "union"] ∧
    (Range (sampleDeps [ErrAtom.sentinel "union"] [ErrAtom.sentinel "close"])
      (sampleStore entriesGetPost []) ⟨7⟩ RangeOpts.zero).2.contains
      [ErrAtom.sentinel "close"] ∧
    (Range (sampleDeps [ErrAtom.sentinel "union"] [ErrAtom.sentinel "close"])
      (sampleStore entriesGetPost []) ⟨7⟩ RangeOpts.zero).2 =
      [ErrAtom.sentinel "union", ErrAtom.sentinel "union", ErrAtom.sentinel "close"] :=
  ⟨(Range_error_aggregates (sampleDeps [ErrAtom.sentinel "union"] [ErrAtom.sentinel "close"])
      (sampleStore entriesGetPost []) ⟨7⟩ RangeOpts.zero (by decide)).1
      [ErrAtom.sentinel "union"] (by decide),
   (Range_error_aggregates (sampleDeps [ErrAtom.sentinel "union"] [ErrAtom.sentinel "close"])
      (sampleStore entriesGetPost []) ⟨7⟩ RangeOpts.zero (by decide)).2.1
      [ErrAtom.sentinel "close"] (by decide),
   by decide⟩

/-- C9: in a run of `Range` in which the iterator is created, whatever the `Union` calls
return, the calls made are calls that are neither a `Next()` returning false nor a
`Close()`, then the `Next()` that returns false, then one `Close()`, which is the last call;
and the error `Close()` returns is contained in the error `Range` returns. -/
theorem Range_closes_once (d : Deps) (s : store) (fieldKey : FieldKey) (opts : RangeOpts)
    (hcreated : (Iterator d s fieldKey opts QueryOrder_Sort.SORT_ASC).2 = []) :
    ∃ body,
      (rangeRun d s fieldKey opts).2 = body ++ [Call.next false,
        Call.close (Iterator d s fieldKey opts QueryOrder_Sort.SORT_ASC).1.closeErr] ∧
      (∀ c ∈ body, c ≠ Call.next false ∧ ∀ e, c ≠ Call.close e) ∧
      (Range d s fieldKey opts).2.contains
        (Iterator d s fieldKey opts QueryOrder_Sort.SORT_ASC).1.closeErr := by
  obtain ⟨body, hcalls, hbody⟩ := rangeLoop_calls d
    (Iterator d s fieldKey opts QueryOrder_Sort.SORT_ASC).1.pending ⟨NewPostingList, [], []⟩
  refine ⟨body, ?_, hbody, ?_⟩
  · rw [rangeRun_created d s fieldKey opts hcreated, hcalls]
    simp
  · rw [Range, rangeRun_created d s fieldKey opts hcreated]
    exact contains_append_right _ _

/-- Two values whose `Union` fails and a `Close` that fails: `Close` is still called, once,
right after the `Next()` that returned false. -/
theorem Range_closes_once_witness :
    (∃ body,
      (rangeRun (sampleDeps [ErrAtom.sentinel "union"] [ErrAtom.sentinel "close"])
        (sampleStore entriesGetPost []) ⟨7⟩ RangeOpts.zero).2 = body ++ [Call.next false,
        Call.close (Iterator (sampleDeps [ErrAtom.sentinel "union"] [ErrAtom.sentinel "close"])
          (sampleStore entriesGetPost []) ⟨7⟩ RangeOpts.zero
          QueryOrder_Sort.SORT_ASC).1.closeErr] ∧
      (∀ c ∈ body, c ≠ Call.next false ∧ ∀ e, c ≠ Call.close e) ∧
      (Range (sampleDeps [ErrAtom.sentinel "union"] [ErrAtom.sentinel "close"])
        (sampleStore entriesGetPost []) ⟨7⟩ RangeOpts.zero).2.contains
        (Iterator (sampleDeps [ErrAtom.sentinel "union"] [ErrAtom.sentinel "close"])
          (sampleStore entriesGetPost []) ⟨7⟩ RangeOpts.zero
          QueryOrder_Sort.SORT_ASC).1.closeErr) ∧
    (rangeRun (sampleDeps [ErrAtom.sentinel "union"] [ErrAtom.sentinel "close"])
      (sampleStore entriesGetPost []) ⟨7⟩ RangeOpts.zero).2 =
      [Call.next true, Call.val, Call.union [ErrAtom.sentinel "union"],
       Call.next true, Call.val, Call.union [ErrAtom.sentinel "union"],
       Call.next false, Call.close [ErrAtom.sentinel "close"]] :=
  ⟨Range_closes_once (sampleDeps [ErrAtom.sentinel "union"] [ErrAtom.sentinel "close"])
    (sampleStore entriesGetPost []) ⟨7⟩ RangeOpts.zero (by decide), by decide⟩

/-! ## Failed queries -/

/-- C10, as stated, fails: `Range` (and so `MatchField`) over "GET" at 1, 2, 3 and "POST" at
4, 5 with an iterator whose `Close` fails returns the non-nil error together with the set
{1, 2, 3, 4, 5}, and `MatchTerms` for "GET" over a store whose lookup fails after the visits
returns the non-nil error together with the set {1, 2, 3}. -/
theorem failed_query_keeps_accumulated_set :
    (Range (sampleDeps [] [ErrAtom.sentinel "close"]) (sampleStore entriesGetPost []) ⟨7⟩
      RangeOpts.zero).2 ≠ [] ∧
    (Range (sampleDeps [] [ErrAtom.sentinel "close"]) (sampleStore entriesGetPost []) ⟨7⟩
      RangeOpts.zero).1 = some {1, 2, 3, 4, 5} ∧
    (MatchField (sampleDeps [] [ErrAtom.sentinel "close"]) (sampleStore entriesGetPost [])
      ⟨7⟩).2 ≠ [] ∧
    (MatchField (sampleDeps [] [ErrAtom.sentinel "close"]) (sampleStore entriesGetPost [])
      ⟨7⟩).1 = some {1, 2, 3, 4, 5} ∧
    (MatchTerms (sampleDeps [] []) (sampleStore entriesGetPost [ErrAtom.sentinel "io"])
      ⟨⟨7⟩, [71, 69, 84]⟩).2 ≠ [] ∧
    (MatchTerms (sampleDeps [] []) (sampleStore entriesGetPost [ErrAtom.sentinel "io"])
      ⟨⟨7⟩, [71, 69, 84]⟩).1 = some {1, 2, 3} := by
  have hrange : (Range (sampleDeps [] [ErrAtom.sentinel "close"])
      (sampleStore entriesGetPost []) ⟨7⟩ RangeOpts.zero).1 = some {1, 2, 3, 4, 5} := by
    simp [Range, rangeRun, rangeConsume, rangeLoop, Iterator, sampleDeps, sampleTemplate,
      sampleStore, entriesGetPost, sampleScope, sampleUnmarshal, sampleBetween, RangeOpts.zero,
      traverse, advance, mergeStep, mergeLoop, NewPostingListWithInitialData, NewPostingList,
      PostingList.Insert, sampleBytesToUint64, idBytes]
    ext x; simp; tauto
  have hterms : (MatchTerms (sampleDeps [] [])
      (sampleStore entriesGetPost [ErrAtom.sentinel "io"]) ⟨⟨7⟩, [71, 69, 84]⟩).1 =
      some {1, 2, 3} := by
    rw [MatchTerms, if_neg (by decide), lookupTerms_eq, if_neg (by decide)]
    simp [sampleDeps, sampleStore, entriesGetPost, sampleMarshal, sampleBytesToUint64, idBytes]
  exact ⟨by decide, hrange, by decide, hrange, by decide, hterms⟩

/-- C10, amended: a query that fails before anything was accumulated returns no set of
identifiers (`MatchTerms` returns the nil list when marshalling fails, `Range` and
`MatchField` return the empty list when the iterator cannot be created), each with the
error; when the failure comes later the accumulated set is returned with the error:
`MatchTerms` returns the visited identifiers with a lookup error that is not key-not-found,
and `Range` returns the members of all yielded values with the error of `Close` when every
`Union` call returned nil. -/
theorem failed_query_result (d : Deps) (s : store) :
    (∀ field, (d.Marshal field s.termMetadata).2 ≠ [] →
      MatchTerms d s field = (none, (d.Marshal field s.termMetadata).2)) ∧
    (∀ fieldKey opts, (Iterator d s fieldKey opts QueryOrder_Sort.SORT_ASC).2 ≠ [] →
      Range d s fieldKey opts =
        (some ∅, (Iterator d s fieldKey opts QueryOrder_Sort.SORT_ASC).2)) ∧
    (∀ fieldKey, (Iterator d s fieldKey RangeOpts.zero QueryOrder_Sort.SORT_ASC).2 ≠ [] →
      MatchField d s fieldKey =
        (some ∅, (Iterator d s fieldKey RangeOpts.zero QueryOrder_Sort.SORT_ASC).2)) ∧
    (∀ field, (d.Marshal field s.termMetadata).2 = [] →
      errorsIs (s.lsm.run (d.Marshal field s.termMetadata).1).2 d.ErrKeyNotFound = false →
      MatchTerms d s field =
        (some ((s.lsm.run (d.Marshal field s.termMetadata).1).1.map d.BytesToUint64).toFinset,
          (s.lsm.run (d.Marshal field s.termMetadata).1).2)) ∧
    (∀ fieldKey opts, (Iterator d s fieldKey opts QueryOrder_Sort.SORT_ASC).2 = [] →
      (∀ a b, (d.Union a b).2 = [] → (d.Union a b).1 = a ∪ b) →
      (∀ e, Call.union e ∈ (rangeRun d s fieldKey opts).2 → e = []) →
      ∃ list, Range d s fieldKey opts =
          (some list, (Iterator d s fieldKey opts QueryOrder_Sort.SORT_ASC).1.closeErr) ∧
        ∀ x, x ∈ list ↔
          ∃ p ∈ (Iterator d s fieldKey opts QueryOrder_Sort.SORT_ASC).1.pending,
            x ∈ p.Value) := by
  have hrange : ∀ fieldKey opts,
      (Iterator d s fieldKey opts QueryOrder_Sort.SORT_ASC).2 ≠ [] →
      Range d s fieldKey opts =
        (some ∅, (Iterator d s fieldKey opts QueryOrder_Sort.SORT_ASC).2) := by
    intro fieldKey opts h
    rw [Range, rangeRun, if_pos h]
    rfl
  refine ⟨?_, hrange, fun fieldKey h => hrange fieldKey RangeOpts.zero h, ?_, ?_⟩
  · intro field h
    rw [MatchTerms, if_pos h]
  · intro field hm hnf
    rw [MatchTerms, if_neg (by simp [hm]), lookupTerms_eq, if_neg (by simp [hnf])]
  · intro fieldKey opts hcreated hU hok
    rw [rangeRun_created d s fieldKey opts hcreated] at hok
    have hloop := rangeLoop_all_unions_ok d
      (Iterator d s fieldKey opts QueryOrder_Sort.SORT_ASC).1.pending ⟨NewPostingList, [], []⟩
      hU (fun e he => hok e (List.mem_append_left _ he))
    refine ⟨(rangeLoop d (Iterator d s fieldKey opts QueryOrder_Sort.SORT_ASC).1.pending
      ⟨NewPostingList, [], []⟩).list, ?_, fun x => ?_⟩
    · rw [Range, rangeRun_created d s fieldKey opts hcreated, hloop.1]
      rfl
    · rw [hloop.2 x]
      simp [NewPostingList]

/-- A field without a term, the field 0, which has no iterator, and a lookup that fails
after its visits: the first two fail with the nil and the empty list, the third keeps the
visited identifiers. -/
theorem failed_query_result_witness :
    MatchTerms (sampleDeps [] []) (sampleStore entriesGetPost []) ⟨⟨7⟩, []⟩ =
      (none, [ErrAtom.sentinel "empty term"]) ∧
    Range (sampleDeps [] []) (sampleStore entriesGetPost []) ⟨0⟩ RangeOpts.zero =
      (some ∅, [ErrAtom.sentinel "no such field"]) ∧
    MatchField (sampleDeps [] []) (sampleStore entriesGetPost []) ⟨0⟩ =
      (some ∅, [ErrAtom.sentinel "no such field"]) ∧
    MatchTerms (sampleDeps [] []) (sampleStore entriesGetPost [ErrAtom.sentinel "io"])
      ⟨⟨7⟩, [71, 69, 84]⟩ =
      (some ([idBytes 1, idBytes 2, idBytes 3].map sampleBytesToUint64).toFinset,
        [ErrAtom.sentinel "io"]) :=
  ⟨(failed_query_result (sampleDeps [] []) (sampleStore entriesGetPost [])).1
      ⟨⟨7⟩, []⟩ (by decide),
   (failed_query_result (sampleDeps [] []) (sampleStore entriesGetPost [])).2.1
      ⟨0⟩ RangeOpts.zero (by decide),
   (failed_query_result (sampleDeps [] []) (sampleStore entriesGetPost [])).2.2.1
      ⟨0⟩ (by decide),
   (failed_query_result (sampleDeps [] [])
      (sampleStore entriesGetPost [ErrAtom.sentinel "io"])).2.2.2.1
      ⟨⟨7⟩, [71, 69, 84]⟩ (by decide) (by decide)⟩

end Lsm
